import Mathlib

/-!
Verification of the LEGIC RF reader core (`armsrc/legicrf.c`).

The imperative C code is shallowly embedded: the keystream collaborator
(`legic_prng_*`) is a pure stream `ks : Nat → Bool` together with an explicit
position counter, the demodulated bit channel is a function or list of
booleans, machine integers are `Nat`/`Int` with explicit `% 2 ^ 16` where
16-bit wrap-around matters, and host-visible effects are explicit values.
-/

namespace LegicRF

/-- `tx_frame(frame, len)` (legicrf.c lines 131–146): transmits `len` bits,
LSB first; bit `i` of `frame` is XORed with the keystream bit at the current
position (`legic_prng_get_bit`), and the keystream is advanced by one per bit
(`legic_prng_forward(1)`). Result: the list of wire bits, in chronological
order, and the keystream position after the call. -/
def tx_frame (ks : Nat → Bool) (pos : Nat) (frame len : Nat) : List Bool × Nat :=
  ((List.range len).map (fun i => (frame.testBit i) ^^ ks (pos + i)), pos + len)

/-- The accumulator of `rx_frame` (legicrf.c lines 148–160): after `n` loop
iterations, `frame` holds `frame |= (rx_bit() ^ legic_prng_get_bit()) << i`
for `i = 0 .. n-1`, where `chan i` is the bit `rx_bit()` demodulated at
step `i`. -/
def rx_frame_acc (ks : Nat → Bool) (pos : Nat) (chan : Nat → Bool) : Nat → Nat
  | 0 => 0
  | n + 1 =>
    rx_frame_acc ks pos chan n ||| ((if chan n ^^ ks (pos + n) then 1 else 0) <<< n)

/-- `rx_frame(len)` (legicrf.c lines 148–160): receives `len` bits, LSB first,
XORing each demodulated bit with the keystream bit and advancing the keystream
by one per bit. Result: the decoded frame value and the keystream position
after the call. -/
def rx_frame (ks : Nat → Bool) (pos len : Nat) (chan : Nat → Bool) : Nat × Nat :=
  (rx_frame_acc ks pos chan len, pos + len)

/-- `rx_bit()` (legicrf.c lines 79–94): of the 5 amplitude samples acquired
per bit period, samples 3 and 4 (indices 2 and 3) are compared against the
process-scoped `input_threshold`.  Both strictly above → `true`; both strictly
below → `false`; any other combination hits the `Dbprintf` soft-fail path,
which logs the two samples together with the threshold and returns `false`.
The second component models the log: `none` for a clean decision, `some
(p 2, p 3, t)` when the diagnostic line was emitted. -/
def rx_bit (p : Fin 5 → Int) (t : Int) : Bool × Option (Int × Int × Int) :=
  if p 2 > t ∧ p 3 > t then (true, none)
  else if p 2 < t ∧ p 3 < t then (false, none)
  else (false, some (p 2, p 3, t))

/-- The threshold calibration loop of `setup_phase_reader` (legicrf.c lines
238–247): `input_threshold` starts at the heuristic 8, each sampled amplitude
strictly greater than the running value replaces it, and on completion the
result is doubled (`input_threshold <<= 1`). -/
def calibrate_threshold (samples : List Int) : Int :=
  2 * samples.foldl (fun t s => if s > t then s else t) 8

/-- Observable reader-side protocol actions of `setup_phase_reader` after the
calibration window: keystream re-seeds (`legic_prng_init`), keystream skips
(`legic_prng_forward`), transmitted frames, timed waits and frame receives. -/
inductive RWDEvent where
  | prng_init : Nat → RWDEvent
  | prng_forward : Nat → RWDEvent
  | tx : Nat → Nat → RWDEvent
  | wait : Nat → RWDEvent
  | rx : Nat → RWDEvent
deriving DecidableEq

/-- `TAG_FRAME_WAIT` (legicrf.c line 28): 330 µs from reader frame end to tag
frame start. -/
def TAG_FRAME_WAIT : Nat := 330

/-- `setup_phase_reader(iv)` (legicrf.c lines 233–275), as the calibrated
threshold plus the trace of protocol actions after calibration.  `samples` are
the amplitudes observed during the 5 ms charge-up window and `card_type` is
the value the 6-bit `rx_frame` call decodes.  Source order: `legic_prng_init(0)`,
`tx_frame(iv, 7)`, `legic_prng_init(iv)`, `legic_prng_forward(2)`, busy-wait
until `TAG_FRAME_WAIT`, `rx_frame(6)`, then the obfuscated acknowledgment
switch (`0x0d → tx_frame(0x19, 6)`; `0x1d`, `0x3d → tx_frame(0x39, 6)`;
default: none). -/
def setup_phase_reader (samples : List Int) (iv : Nat) (card_type : Nat) :
    Int × List RWDEvent × Nat :=
  let ack : List RWDEvent :=
    if card_type = 0x0d then [RWDEvent.tx 0x19 6]
    else if card_type = 0x1d then [RWDEvent.tx 0x39 6]
    else if card_type = 0x3d then [RWDEvent.tx 0x39 6]
    else []
  (calibrate_threshold samples,
   [RWDEvent.prng_init 0, RWDEvent.tx iv 7, RWDEvent.prng_init iv,
    RWDEvent.prng_forward 2, RWDEvent.wait TAG_FRAME_WAIT, RWDEvent.rx 6] ++ ack,
   card_type)

/-- `legic_card_select_t` (legic.h, layout per the selection record: tag type,
command width, address width, memory size, 4-byte UID). -/
structure legic_card_select_t where
  tagtype : Nat
  cmdsize : Nat
  addrsize : Nat
  cardsize : Nat
  uid : List Nat
deriving DecidableEq

/-- `init_card(cardtype, p_card)` (legicrf.c lines 166–192): writes the tag
type, then the geometry of the matching table entry, returning 0; unknown
codes zero the geometry and return 2.  The C switch on `p_card->tagtype` is
rendered as an if-chain; the record is passed and returned explicitly. -/
def init_card (cardtype : Nat) (p : legic_card_select_t) :
    Nat × legic_card_select_t :=
  let q := { p with tagtype := cardtype }
  if cardtype = 0x0d then
    (0, { q with cmdsize := 6, addrsize := 5, cardsize := 22 })
  else if cardtype = 0x1d then
    (0, { q with cmdsize := 9, addrsize := 8, cardsize := 256 })
  else if cardtype = 0x3d then
    (0, { q with cmdsize := 11, addrsize := 10, cardsize := 1024 })
  else
    (2, { q with cmdsize := 0, addrsize := 0, cardsize := 0 })

/-- A concrete pre-existing selection record with a non-zero UID, as left over
from an earlier session. -/
def card0 : legic_card_select_t :=
  { tagtype := 0, cmdsize := 0, addrsize := 0, cardsize := 0, uid := [1, 2, 3, 4] }

/-- Modelled from the spec: the `LEGIC_READ` opcode lives in `legic.h`, which
is not part of the sources; the spec's Byte Read Protocol (`(index << 1) |
READ-opcode`) together with the source comment `MIM22 | READCMD = 0x18 | 0x01`
fix it at 1. -/
def LEGIC_READ : Nat := 1

/-- `calc_crc4(cmd, cmd_sz, value)` (legicrf.c lines 277–281): feeds
`(value << cmd_sz) | cmd` over `8 + cmd_sz` bits to the CRC-4 collaborator.
The collaborator itself (`crc.c`, initialised with order 4, polynomial
`0x19 >> 1`, start value 0x05) is outside the sources and is modelled from the
spec as an abstract `compute(value, bit_width)` function `crc4`. -/
def calc_crc4 (crc4 : Nat → Nat → Nat) (cmd cmd_sz value : Nat) : Nat :=
  crc4 ((value <<< cmd_sz) ||| cmd) (8 + cmd_sz)

/-- `read_byte(index, cmd_sz)` (legicrf.c lines 283–302): builds
`cmd = (index << 1) | LEGIC_READ`, transmits it as a `cmd_sz`-bit frame,
receives a 12-bit frame, splits it as `BYTEx(frame, 0)` (low 8 bits, data) and
`BYTEx(frame, 1)` (bits 8.., the CRC nibble), recomputes the CRC and returns
-1 on mismatch (after logging both nibbles) or the data byte on match.
Result: the transmitted wire bits, the keystream position after the call, and
the `int16_t` return value. -/
def read_byte (ks : Nat → Bool) (pos : Nat) (index cmd_sz : Nat)
    (crc4 : Nat → Nat → Nat) (chan : Nat → Bool) : List Bool × Nat × Int :=
  let cmd := (index <<< 1) ||| LEGIC_READ
  let wire := (tx_frame ks pos cmd cmd_sz).1
  let pos1 := (tx_frame ks pos cmd cmd_sz).2
  let resp := (rx_frame ks pos1 12 chan).1
  let pos2 := (rx_frame ks pos1 12 chan).2
  let byte := resp &&& 0xff
  let crc := (resp >>> 8) &&& 0xff
  if calc_crc4 crc4 cmd cmd_sz byte ≠ crc then (wire, pos2, -1)
  else (wire, pos2, (byte : Int))

/-- The length clamp of `LegicRfReader` (legicrf.c lines 356–359): `len` and
`offset` are `uint16_t`, the comparison `len + offset > card.cardsize` is done
after integer promotion, and `len = card.cardsize - offset` stores the signed
difference back into a `uint16_t`, i.e. reduces it modulo `2 ^ 16`. -/
def clamp_len (offset len cardsize : Nat) : Nat :=
  if len + offset > cardsize then
    (((cardsize : Int) - (offset : Int)) % 65536).toNat
  else len

/-- The addresses passed to `read_byte` by the bulk-read loop of
`LegicRfReader` (legicrf.c lines 361–368): `read_byte(offset + i, …)` for
`i = 0 .. len - 1` with the clamped `len`; the `uint16_t` argument reduces
`offset + i` modulo `2 ^ 16`. -/
def read_addrs (offset len cardsize : Nat) : List Nat :=
  (List.range (clamp_len offset len cardsize)).map (fun i => (offset + i) % 65536)

/-- The bulk-read loop body of `LegicRfReader`: each address is read in turn;
a `-1` (CRC mismatch) aborts immediately with no data, otherwise the byte is
appended to the memory image. -/
def read_loop (readf : Nat → Int) : List Nat → Option (List Int)
  | [] => some []
  | a :: rest =>
    if readf a = -1 then none
    else
      match read_loop readf rest with
      | none => none
      | some bs => some (readf a :: bs)

/-- The three host-visible outcomes of `cmd_send` at the end of an operation:
the zero-length failure ack `cmd_send(CMD_ACK, 0, 0, 0, 0, 0)`, or the success
ack carrying a length and the bytes of the memory image. -/
inductive HostOutcome where
  | fail : HostOutcome
  | ok : Nat → List Int → HostOutcome
deriving DecidableEq

/-- The bulk-read portion of `LegicRfReader` (legicrf.c lines 356–371), after
a successful handshake and registry lookup, as a function of the requested
`offset`/`len`, the selected card's `cardsize` and the per-address result of
`read_byte`. -/
def legic_bulk_read (offset len cardsize : Nat) (readf : Nat → Int) :
    HostOutcome :=
  match read_loop readf (read_addrs offset len cardsize) with
  | none => HostOutcome.fail
  | some bs => HostOutcome.ok (clamp_len offset len cardsize) bs

/-- Bits accumulated so far: bit `j` of the accumulator after `n` iterations is
set iff `j < n` and the decoded channel bit at `j` is set. -/
lemma rx_frame_acc_testBit (ks : Nat → Bool) (pos : Nat) (chan : Nat → Bool) :
    ∀ n j, (rx_frame_acc ks pos chan n).testBit j
      = (decide (j < n) && (chan j ^^ ks (pos + j))) := by
  intro n
  induction n with
  | zero =>
    intro j
    simp [rx_frame_acc]
  | succ n ih =>
    intro j
    rw [rx_frame_acc, Nat.testBit_lor, ih]
    by_cases hb : chan n ^^ ks (pos + n)
    · rw [if_pos hb]
      by_cases hj : j = n
      · subst hj
        rw [Nat.shiftLeft_eq, one_mul, Nat.testBit_two_pow_self]
        simp [hb]
      · rw [Nat.shiftLeft_eq, one_mul, Nat.testBit_two_pow_of_ne (fun h => hj h.symm)]
        have : (j < n + 1) = (j < n) := by
          apply propext; constructor <;> intro h <;> omega
        simp [this]
    · rw [if_neg hb, Nat.zero_shiftLeft]
      by_cases hj : j = n
      · subst hj
        have hb2 : (chan j ^^ ks (pos + j)) = false := Bool.eq_false_iff.mpr hb
        simp [hb2]
      · have : (j < n + 1) = (j < n) := by
          apply propext; constructor <;> intro h <;> omega
        simp [this]

/-- Reading the wire bit list produced by `tx_frame` at an in-range index. -/
lemma tx_frame_getD (ks : Nat → Bool) (pos frame len : Nat) (j : Nat)
    (hj : j < len) :
    (tx_frame ks pos frame len).1.getD j false = (frame.testBit j ^^ ks (pos + j)) := by
  have hlen : j < ((List.range len).map
      (fun i => (frame.testBit i) ^^ ks (pos + i))).length := by
    simpa using hj
  rw [tx_frame, List.getD_eq_getElem _ _ hlen]
  simp

/-- C2: transmitting any frame value `V` of length `L ∈ [1,32]` (with
`V < 2 ^ L`) over a deterministic keystream and bit channel and then receiving
`L` bits of the very wire bits transmitted yields `V` back unchanged, and the
keystream position advances by exactly `L` on the transmit side and on the
receive side — the latter for every channel, i.e. regardless of the success or
failure of individual bit decisions. -/
theorem legic_C2 (ks : Nat → Bool) (pos L V : Nat)
    (hL1 : 1 ≤ L) (hL2 : L ≤ 32) (hV : V < 2 ^ L) :
    (rx_frame ks pos L (fun i => (tx_frame ks pos V L).1.getD i false)).1 = V ∧
    (tx_frame ks pos V L).2 = pos + L ∧
    ∀ chan, (rx_frame ks pos L chan).2 = pos + L := by
  refine ⟨?_, rfl, fun _ => rfl⟩
  apply Nat.eq_of_testBit_eq
  intro j
  rw [rx_frame, rx_frame_acc_testBit]
  by_cases hj : j < L
  · rw [tx_frame_getD ks pos V L j hj]
    rcases hxor : ks (pos + j) <;> rcases hVb : V.testBit j <;> simp [hj, hxor, hVb]
  · have hVj : V.testBit j = false := by
      apply Nat.testBit_eq_false_of_lt
      calc V < 2 ^ L := hV
        _ ≤ 2 ^ j := Nat.pow_le_pow_right (by omega) (by omega)
    simp [hj, hVj]

/-- C2 witness: a concrete 7-bit round trip at keystream position 5. -/
theorem legic_C2_witness :
    (rx_frame (fun n => decide (n % 3 = 0)) 5 7
        (fun i => (tx_frame (fun n => decide (n % 3 = 0)) 5 85 7).1.getD i false)).1 = 85 ∧
    (tx_frame (fun n => decide (n % 3 = 0)) 5 85 7).2 = 5 + 7 ∧
    (rx_frame (fun n => decide (n % 3 = 0)) 5 7 (fun _ => false)).2 = 5 + 7 := by
  have h := legic_C2 (fun n => decide (n % 3 = 0)) 5 7 85
    (by decide) (by decide) (by decide)
  exact ⟨h.1, h.2.1, h.2.2 (fun _ => false)⟩

/-- The calibration loop's update step is `max`. -/
lemma calibrate_step_eq_max (t s : Int) : (if s > t then s else t) = max t s := by
  rcases le_or_lt s t with h | h
  · rw [if_neg (not_lt.mpr h), max_eq_left h]
  · rw [if_pos h, max_eq_right h.le]

/-- Folding `max` over a list is the identity when every element is bounded
by the accumulator. -/
lemma foldl_max_of_le (l : List Int) (a : Int) (h : ∀ s ∈ l, s ≤ a) :
    l.foldl max a = a := by
  induction l generalizing a with
  | nil => rfl
  | cons x xs ih =>
    rw [List.foldl_cons, max_eq_left (h x (List.mem_cons_self x xs))]
    exact ih a (fun s hs => h s (List.mem_cons_of_mem x hs))

/-- Folding `max` over a list containing its upper bound `M`, starting from an
accumulator at most `M`, yields `M`. -/
lemma foldl_max_eq :
    ∀ (l : List Int) (a M : Int), M ∈ l → (∀ s ∈ l, s ≤ M) → a ≤ M →
      l.foldl max a = M
  | [], _, M, hM, _, _ => absurd hM (List.not_mem_nil M)
  | x :: xs, a, M, hM, hub, ha => by
    rw [List.foldl_cons]
    by_cases hx : M ∈ xs
    · exact foldl_max_eq xs (max a x) M hx
        (fun s hs => hub s (List.mem_cons_of_mem x hs))
        (max_le ha (hub x (List.mem_cons_self x xs)))
    · have hxM : x = M := ((List.mem_cons.mp hM).resolve_right hx).symm
      subst hxM
      rw [max_eq_right ha]
      exact foldl_max_of_le xs x (fun s hs => hub s (List.mem_cons_of_mem x hs))

/-- C7: for every sequence of amplitude samples with maximum `M` observed
during the calibration window, the derived decision threshold is exactly
`2 × max(M, 8)`: in particular `2 × M` when `M ≥ 8`, and 16 when every sample
is below 8. -/
theorem legic_C7 (samples : List Int) (M : Int) (hM : M ∈ samples)
    (hub : ∀ s ∈ samples, s ≤ M) :
    calibrate_threshold samples = 2 * max M 8 := by
  have hstep : calibrate_threshold samples = 2 * samples.foldl max 8 := by
    unfold calibrate_threshold
    simp only [calibrate_step_eq_max]
  rw [hstep]
  rcases le_or_lt 8 M with h8 | h8
  · rw [foldl_max_eq samples 8 M hM hub h8, max_eq_left h8]
  · rw [foldl_max_of_le samples 8 (fun s hs => le_trans (hub s hs) h8.le),
      max_eq_right h8.le]

/-- C7 witness: samples with maximum 10 give threshold `2 × max 10 8 = 20`. -/
theorem legic_C7_witness :
    calibrate_threshold [(10 : Int), 3] = 2 * max 10 8 :=
  legic_C7 [10, 3] 10 (by decide) (by decide)

/-- C8: the bit demodulator returns 1 when both decision samples are above the
threshold, 0 when both are below, and on any other combination it returns the
soft-fail fallback 0 while observably logging the observed pair together with
the threshold (it never aborts: every input produces a bit). -/
theorem legic_C8 (p : Fin 5 → Int) (t : Int) :
    (p 2 > t ∧ p 3 > t → rx_bit p t = (true, none)) ∧
    (p 2 < t ∧ p 3 < t → rx_bit p t = (false, none)) ∧
    (¬(p 2 > t ∧ p 3 > t) → ¬(p 2 < t ∧ p 3 < t) →
      rx_bit p t = (false, some (p 2, p 3, t))) := by
  refine ⟨fun h => ?_, fun h => ?_, fun h1 h2 => ?_⟩
  · rw [rx_bit, if_pos h]
  · rw [rx_bit, if_neg (by omega), if_pos h]
  · rw [rx_bit, if_neg h1, if_neg h2]

/-- C8 witness: one sample above and one below the threshold takes the
ambiguous branch, logging `(9, 1, 5)` and returning the fallback 0. -/
theorem legic_C8_witness :
    rx_bit (fun i => if i.val = 2 then 9 else if i.val = 3 then 1 else 0) 5
      = (false, some (9, 1, 5)) := by
  have h := (legic_C8 (fun i => if i.val = 2 then 9 else if i.val = 3 then 1 else 0) 5).2.2
    (by decide) (by decide)
  simpa using h

/-- C10: the demodulator's threshold comparisons are strict in both
directions, so a decision sample exactly equal to the threshold forces the
ambiguous branch — fallback 0 plus the diagnostic log — whatever the other
sample is. -/
theorem legic_C10 (p : Fin 5 → Int) (t : Int) (h : p 2 = t ∨ p 3 = t) :
    rx_bit p t = (false, some (p 2, p 3, t)) := by
  rcases h with h | h
  · rw [rx_bit, if_neg (by omega), if_neg (by omega)]
  · rw [rx_bit, if_neg (by omega), if_neg (by omega)]

/-- C10 witness: the 3rd sample equal to the threshold (4th clearly above)
yields the logged fallback 0. -/
theorem legic_C10_witness :
    rx_bit (fun i => if i.val = 2 then 5 else if i.val = 3 then 11 else 0) 5
      = (false, some (5, 11, 5)) := by
  have h := legic_C10 (fun i => if i.val = 2 then 5 else if i.val = 3 then 11 else 0) 5
    (Or.inl (by decide))
  simpa using h

/-- C4: after calibration the handshake performs exactly, in order: keystream
reset to seed 0, transmit of the IV as a 7-bit frame, keystream re-seed with
the transmitted IV, keystream advance by 2, the 330 µs inter-frame wait, the
6-bit card-type receive, and then the fixed type-specific 6-bit
acknowledgment — 0x19 for the memory-size-22 type 0x0d, 0x39 shared by the
memory-size-256 type 0x1d and the memory-size-1024 type 0x3d, these two
values being distinct — while any unrecognized type transmits no
acknowledgment frame. -/
theorem legic_C4 (samples : List Int) (iv ct : Nat) :
    (setup_phase_reader samples iv ct).2.1 =
      [RWDEvent.prng_init 0, RWDEvent.tx iv 7, RWDEvent.prng_init iv,
       RWDEvent.prng_forward 2, RWDEvent.wait 330, RWDEvent.rx 6] ++
      (if ct = 0x0d then [RWDEvent.tx 0x19 6]
       else if ct = 0x1d ∨ ct = 0x3d then [RWDEvent.tx 0x39 6]
       else []) ∧ (0x19 : Nat) ≠ 0x39 := by
  refine ⟨?_, by decide⟩
  by_cases h1 : ct = 0x0d
  · simp [setup_phase_reader, TAG_FRAME_WAIT, h1]
  · by_cases h2 : ct = 0x1d
    · simp [setup_phase_reader, TAG_FRAME_WAIT, h1, h2]
    · by_cases h3 : ct = 0x3d
      · simp [setup_phase_reader, TAG_FRAME_WAIT, h1, h2, h3]
      · simp [setup_phase_reader, TAG_FRAME_WAIT, h1, h2, h3]

/-- C5: the registry's fixed table — type 0x0d yields command width 6, address
width 5, memory size 22; type 0x1d yields 9/8/256; type 0x3d yields
11/10/1024, each with success code 0 — and every other code yields the
unsupported-card failure code 2. -/
theorem legic_C5 (c : Nat) (p : legic_card_select_t)
    (h : c ≠ 0x0d ∧ c ≠ 0x1d ∧ c ≠ 0x3d) :
    (init_card 0x0d p).1 = 0 ∧
    (init_card 0x0d p).2.cmdsize = 6 ∧
    (init_card 0x0d p).2.addrsize = 5 ∧
    (init_card 0x0d p).2.cardsize = 22 ∧
    (init_card 0x1d p).1 = 0 ∧
    (init_card 0x1d p).2.cmdsize = 9 ∧
    (init_card 0x1d p).2.addrsize = 8 ∧
    (init_card 0x1d p).2.cardsize = 256 ∧
    (init_card 0x3d p).1 = 0 ∧
    (init_card 0x3d p).2.cmdsize = 11 ∧
    (init_card 0x3d p).2.addrsize = 10 ∧
    (init_card 0x3d p).2.cardsize = 1024 ∧
    (init_card c p).1 = 2 := by
  obtain ⟨h1, h2, h3⟩ := h
  refine ⟨?_, ?_, ?_, ?_, ?_, ?_, ?_, ?_, ?_, ?_, ?_, ?_, ?_⟩ <;>
    simp [init_card, h1, h2, h3]

/-- C5 witness: the table at the three supported codes, and failure code 2 at
the unsupported code 0x42. -/
theorem legic_C5_witness :
    (init_card 0x0d card0).1 = 0 ∧
    (init_card 0x0d card0).2.cmdsize = 6 ∧
    (init_card 0x0d card0).2.addrsize = 5 ∧
    (init_card 0x0d card0).2.cardsize = 22 ∧
    (init_card 0x1d card0).1 = 0 ∧
    (init_card 0x1d card0).2.cmdsize = 9 ∧
    (init_card 0x1d card0).2.addrsize = 8 ∧
    (init_card 0x1d card0).2.cardsize = 256 ∧
    (init_card 0x3d card0).1 = 0 ∧
    (init_card 0x3d card0).2.cmdsize = 11 ∧
    (init_card 0x3d card0).2.addrsize = 10 ∧
    (init_card 0x3d card0).2.cardsize = 1024 ∧
    (init_card 0x42 card0).1 = 2 :=
  legic_C5 0x42 card0 (by decide)

/-- C6 counterexample: the claim "an unrecognized tag-type code leaves all
fields of the resulting record zeroed (tag type counted and UID alike)" fails
at code 0x2d applied to a record whose UID is `[1, 2, 3, 4]`: the lookup does
fail with code 2, yet the tag-type field holds 0x2d, not 0, and the UID is
untouched. -/
theorem legic_C6_counterexample :
    (init_card 0x2d card0).1 = 2 ∧
    (init_card 0x2d card0).2.tagtype ≠ 0 ∧
    (init_card 0x2d card0).2.uid ≠ [0, 0, 0, 0] := by
  refine ⟨?_, ?_, ?_⟩ <;> decide

/-- C6 (amended): for every unrecognized tag-type code the registry lookup
fails (code 2) and the geometry fields — command width, address width, card
size — are zeroed, while the tag-type field is set to the code that was looked
up and the UID field is left unchanged. -/
theorem legic_C6_amended (c : Nat) (p : legic_card_select_t)
    (h : c ≠ 0x0d ∧ c ≠ 0x1d ∧ c ≠ 0x3d) :
    (init_card c p).1 = 2 ∧
    (init_card c p).2.cmdsize = 0 ∧
    (init_card c p).2.addrsize = 0 ∧
    (init_card c p).2.cardsize = 0 ∧
    (init_card c p).2.tagtype = c ∧
    (init_card c p).2.uid = p.uid := by
  obtain ⟨h1, h2, h3⟩ := h
  refine ⟨?_, ?_, ?_, ?_, ?_, ?_⟩ <;> simp [init_card, h1, h2, h3]

/-- C6 witness: the amended statement at code 0x2d and a record with UID
`[1, 2, 3, 4]`. -/
theorem legic_C6_witness :
    (init_card 0x2d card0).1 = 2 ∧
    (init_card 0x2d card0).2.cmdsize = 0 ∧
    (init_card 0x2d card0).2.addrsize = 0 ∧
    (init_card 0x2d card0).2.cardsize = 0 ∧
    (init_card 0x2d card0).2.tagtype = 0x2d ∧
    (init_card 0x2d card0).2.uid = card0.uid :=
  legic_C6_amended 0x2d card0 (by decide)

/-- C3: the byte read protocol builds `cmd = (index << 1) | READ-opcode`,
transmits it as a frame of the command width, receives a 12-bit response whose
low 8 bits are the data byte and whose bits above them are the CRC nibble
(keystream advanced by `cmd_sz + 12` in total), recomputes CRC-4 over
`(data << cmd_sz) | cmd` across `8 + cmd_sz` bits, and: on nibble mismatch
reports the checksum failure -1 (negative, hence distinguished from every
successful byte value), on match returns the received data byte
(non-negative). -/
theorem legic_C3 (ks : Nat → Bool) (pos index cmd_sz : Nat)
    (crc4 : Nat → Nat → Nat) (chan : Nat → Bool) (data crcN : Nat)
    (hd : (rx_frame ks (pos + cmd_sz) 12 chan).1 &&& 0xff = data)
    (hc : ((rx_frame ks (pos + cmd_sz) 12 chan).1 >>> 8) &&& 0xff = crcN) :
    (read_byte ks pos index cmd_sz crc4 chan).1
      = (tx_frame ks pos ((index <<< 1) ||| 1) cmd_sz).1 ∧
    (read_byte ks pos index cmd_sz crc4 chan).2.1 = pos + cmd_sz + 12 ∧
    (crc4 ((data <<< cmd_sz) ||| ((index <<< 1) ||| 1)) (8 + cmd_sz) ≠ crcN →
      (read_byte ks pos index cmd_sz crc4 chan).2.2 = -1 ∧
      (read_byte ks pos index cmd_sz crc4 chan).2.2 < 0) ∧
    (crc4 ((data <<< cmd_sz) ||| ((index <<< 1) ||| 1)) (8 + cmd_sz) = crcN →
      (read_byte ks pos index cmd_sz crc4 chan).2.2 = (data : Int) ∧
      0 ≤ (read_byte ks pos index cmd_sz crc4 chan).2.2) := by
  have e1 : (tx_frame ks pos ((index <<< 1) ||| 1) cmd_sz).2 = pos + cmd_sz := rfl
  have hrb : read_byte ks pos index cmd_sz crc4 chan
      = ((tx_frame ks pos ((index <<< 1) ||| 1) cmd_sz).1, pos + cmd_sz + 12,
         if crc4 ((data <<< cmd_sz) ||| ((index <<< 1) ||| 1)) (8 + cmd_sz) ≠ crcN
         then -1 else (data : Int)) := by
    simp only [read_byte, LEGIC_READ, calc_crc4]
    rw [e1, hd, hc]
    by_cases hco : crc4 ((data <<< cmd_sz) ||| ((index <<< 1) ||| 1)) (8 + cmd_sz) ≠ crcN
    · rw [if_pos hco, if_pos hco]
      rfl
    · rw [if_neg hco, if_neg hco]
      rfl
  rw [hrb]
  refine ⟨rfl, rfl, fun h => ?_, fun h => ?_⟩
  · rw [if_pos h]
    exact ⟨rfl, show (-1 : Int) < 0 by decide⟩
  · rw [if_neg (fun hn => hn h)]
    exact ⟨rfl, Int.natCast_nonneg data⟩

/-- C3 witness: index 3, command width 9, an abstract CRC collaborator
`(v + w) % 16`, a silent keystream and a channel carrying the 12-bit frame
`0xA5` with the matching nibble 8: the call returns the byte `0xA5`. -/
theorem legic_C3_witness :
    ((rx_frame (fun _ => false) (0 + 9) 12 (fun i => (2213 : Nat).testBit i)).1
        &&& 0xff = 0xa5) ∧
    (((rx_frame (fun _ => false) (0 + 9) 12 (fun i => (2213 : Nat).testBit i)).1
        >>> 8) &&& 0xff = 8) ∧
    ((fun v w => (v + w) % 16) ((0xa5 <<< 9) ||| ((3 <<< 1) ||| 1)) (8 + 9) = 8) ∧
    (read_byte (fun _ => false) 0 3 9 (fun v w => (v + w) % 16)
        (fun i => (2213 : Nat).testBit i)).2.2 = (0xa5 : Int) := by
  have h := legic_C3 (fun _ => false) 0 3 9 (fun v w => (v + w) % 16)
    (fun i => (2213 : Nat).testBit i) 0xa5 8 (by decide) (by decide)
  exact ⟨by decide, by decide, by decide, (h.2.2.2 (by decide)).1⟩

/-- A `-1` from `read_byte` anywhere in the scanned address list makes the
bulk-read loop abort with no data. -/
lemma read_loop_none (readf : Nat → Int) :
    ∀ (l : List Nat) (a : Nat), a ∈ l → readf a = -1 →
      read_loop readf l = none
  | [], _, ha, _ => absurd ha (List.not_mem_nil _)
  | b :: rest, a, ha, hf => by
    rw [read_loop]
    by_cases hb : readf b = -1
    · rw [if_pos hb]
    · rw [if_neg hb]
      have ha2 : a ∈ rest := by
        rcases List.mem_cons.mp ha with h | h
        · exact absurd (h ▸ hf) hb
        · exact h
      rw [read_loop_none readf rest a ha2 hf]

/-- C9: if any address scanned by the bulk read yields a CRC failure (-1 from
`read_byte`), the whole operation reports the zero-length failure outcome to
the host: bytes read before the failure are discarded and no success outcome
of any length is observable. -/
theorem legic_C9 (offset len cardsize : Nat) (readf : Nat → Int) (a : Nat)
    (ha : a ∈ read_addrs offset len cardsize) (hf : readf a = -1) :
    legic_bulk_read offset len cardsize readf = HostOutcome.fail ∧
    ∀ n bs, legic_bulk_read offset len cardsize readf ≠ HostOutcome.ok n bs := by
  have h := read_loop_none readf (read_addrs offset len cardsize) a ha hf
  constructor
  · rw [legic_bulk_read, h]
  · intro n bs
    rw [legic_bulk_read, h]
    exact fun hcontra => HostOutcome.noConfusion hcontra

/-- C9 witness: reading 3 bytes from offset 0 of a 1024-byte card where the
byte at address 2 fails its CRC: the first two bytes are discarded and the
host sees only the failure ack. -/
theorem legic_C9_witness :
    legic_bulk_read 0 3 1024 (fun a => if a = 2 then -1 else 7)
      = HostOutcome.fail ∧
    legic_bulk_read 0 3 1024 (fun a => if a = 2 then -1 else 7)
      ≠ HostOutcome.ok 3 [7, 7, 7] := by
  have h := legic_C9 0 3 1024 (fun a => if a = 2 then -1 else 7) 2
    (by decide) (by decide)
  exact ⟨h.1, h.2 3 [7, 7, 7]⟩

/-- C1, evaluated where the code contradicts its own `do not read beyond card
memory` comment: the clamp works for the spec's example — offset 1020, length
20 on a 1024-byte card reads exactly the 4 addresses 1020–1023 — but for
offset 1025 (beyond the card) the `uint16_t` subtraction
`len = card.cardsize - offset` wraps to 65535 and a `read_byte` is issued at
address 1025 ≥ 1024, violating the claimed bound. -/
theorem legic_C1_evaluation :
    clamp_len 1020 20 1024 = 4 ∧
    read_addrs 1020 20 1024 = [1020, 1021, 1022, 1023] ∧
    clamp_len 1025 1 1024 = 65535 ∧
    1025 ∈ read_addrs 1025 1 1024 ∧
    1024 ≤ 1025 := by
  refine ⟨by decide, by decide, by decide, ?_, by decide⟩
  show 1025 ∈ (List.range (clamp_len 1025 1 1024)).map (fun i => (1025 + i) % 65536)
  refine List.mem_map.mpr ⟨0, ?_, by decide⟩
  rw [List.mem_range, (by decide : clamp_len 1025 1 1024 = 65535)]
  decide

end LegicRF
